import Mathlib

/-!
# Board link: framed messages over UART1

A shallow embedding of `car/src/board_link.c` (the firmware's board-to-board
UART interface) and theorems about its framing behaviour.

Conventions of the embedding

* A `uint8_t` is a `Nat`; the cast `(uint8_t)x` is `x % 256`.
* UART1 is a pair of byte queues.  `UARTCharGet` and `UARTCharPut` belong to the
  vendor driver library; they are modelled as blocking one-byte read and write.
  A read from an empty receive queue never returns: `Outcome.blocked`.
* The array behind a packet's `buffer` pointer is a `List Nat` whose length is
  the capacity the caller allocated.  The C code checks no index, so an access
  at an index at or past the capacity is recorded in the `oob` log of the
  machine state and execution goes on: a store there leaves the array as it is,
  a load there reads `0`.
* The model describes the C program as long as the log stays empty.  A store
  past the capacity is undefined behaviour in C: it lands in whatever follows
  the array, possibly the packet's own `magic` and `message_len`, which the
  loops re-read at every test and at the `return`.  The model does not follow
  the program there; it only records that the store was attempted.  Apart from
  the theorem about the log itself, theorems about the bytes the reception of a
  frame consumes and the value it returns therefore assume that the length of
  the frame is within the capacity.
* `receive_board_message_by_type` has an unbounded `do ... while` loop; it takes
  a fuel argument that bounds the number of `receive_board_message` calls.
-/

namespace BoardLink

/-! ## Machine model -/

/-- The cast `(uint8_t)x`. -/
def uint8_t (x : Nat) : Nat := x % 256

/-- UART1 (`BOARD_UART`): `rx` holds the values `UARTCharGet` will return, in
arrival order; `tx` holds the bytes written so far, oldest first. -/
structure UART where
  rx : List Nat
  tx : List Nat
deriving DecidableEq, Repr

/-- Driver call `UARTCharGet(BOARD_UART)`: waits for a character and returns it.
`none` when no character ever arrives. -/
def UARTCharGet (u : UART) : Option (Nat × UART) :=
  match u.rx with
  | [] => none
  | c :: rest => some (c, ⟨rest, u.tx⟩)

/-- Driver call `UARTCharPut(BOARD_UART, ucData)`: waits for space and sends one
character. -/
def UARTCharPut (u : UART) (ucData : Nat) : UART :=
  ⟨u.rx, u.tx ++ [ucData]⟩

/-- Modelled from the spec: the type `MESSAGE_PACKET` of `board_link.h`, a
one-byte `magic`, a one-byte `message_len` and a `buffer` of fixed capacity
(the length of the list). -/
structure MESSAGE_PACKET where
  magic : Nat
  message_len : Nat
  buffer : List Nat
deriving DecidableEq, Repr

/-- Modelled from the spec: the type `NONCE_PACKET` of `board_link.h`, a
one-byte `message_len` and a `buffer` of fixed capacity, with no magic byte. -/
structure NONCE_PACKET where
  message_len : Nat
  buffer : List Nat
deriving DecidableEq, Repr

/-- Machine state seen by one call: the UART, the packet the pointer argument
refers to, and the log of buffer indices accessed at or past the capacity. -/
structure Board (P : Type) where
  uart : UART
  pkt : P
  oob : List Nat
deriving DecidableEq, Repr

/-- How a call ends. -/
inductive Outcome (α : Type) where
  /-- The call returned. -/
  | returned (a : α) : Outcome α
  /-- The call waits forever in `UARTCharGet`. -/
  | blocked : Outcome α
  /-- The model ran out of fuel (the call was still looping). -/
  | timeout : Outcome α
deriving DecidableEq, Repr

/-- The store `buffer[i] = v`, with no bounds check in the source.  Within the
capacity it is the C store.  At or past the capacity the C store lands after the
array, with an effect the model does not describe: the attempt is logged and
the array is left as it is. -/
def store (buffer oob : List Nat) (i v : Nat) : List Nat × List Nat :=
  if i < buffer.length then (buffer.set i v, oob) else (buffer, oob ++ [i])

/-- The load `buffer[i]`, with no bounds check in the source. -/
def load (buffer oob : List Nat) (i : Nat) : Nat × List Nat :=
  if i < buffer.length then (buffer.getD i 0, oob) else (0, oob ++ [i])

/-! ## The functions of `board_link.c` -/

/-- Loop of `send_board_message`:
`for (int i = 0; i < message->message_len; i++) UARTCharPut(BOARD_UART, message->buffer[i]);`
with `k` iterations left, so `k = message_len - i`. -/
def send_loop : Nat → Nat → UART → List Nat → List Nat → UART × List Nat
  | 0, _, u, _, oob => (u, oob)
  | k + 1, i, u, buffer, oob =>
    let (v, oob1) := load buffer oob i
    send_loop k (i + 1) (UARTCharPut u v) buffer oob1

/-- Function `send_board_message(MESSAGE_PACKET *message)`. -/
def send_board_message (s : Board MESSAGE_PACKET) : Nat × Board MESSAGE_PACKET :=
  let u1 := UARTCharPut s.uart s.pkt.magic
  let u2 := UARTCharPut u1 s.pkt.message_len
  let (u3, oob) := send_loop s.pkt.message_len 0 u2 s.pkt.buffer s.oob
  (s.pkt.message_len, ⟨u3, s.pkt, oob⟩)

/-- Loop shared by `receive_board_message` and `receive_board_nonce`:
`for (int i = 0; i < len; i++) buffer[i] = (uint8_t)UARTCharGet(BOARD_UART);`
with `k` iterations left, so `k = len - i`.  The C test re-reads
`message->message_len`; the count taken at entry agrees with it as long as no
store falls past the capacity, since a store inside the array cannot change the
length field. -/
def receive_loop : Nat → Nat → UART → List Nat → List Nat →
    Outcome (UART × List Nat × List Nat)
  | 0, _, u, buffer, oob => .returned (u, buffer, oob)
  | k + 1, i, u, buffer, oob =>
    match UARTCharGet u with
    | none => .blocked
    | some (c, u1) =>
      let (buffer1, oob1) := store buffer oob i (uint8_t c)
      receive_loop k (i + 1) u1 buffer1 oob1

/-- Function `receive_board_message(MESSAGE_PACKET *message)`. -/
def receive_board_message (s : Board MESSAGE_PACKET) :
    Outcome (Nat × Board MESSAGE_PACKET) :=
  match UARTCharGet s.uart with
  | none => .blocked
  | some (c0, u1) =>
    let magic := uint8_t c0
    if magic = 0 then
      .returned (0, ⟨u1, ⟨magic, s.pkt.message_len, s.pkt.buffer⟩, s.oob⟩)
    else
      match UARTCharGet u1 with
      | none => .blocked
      | some (c1, u2) =>
        let message_len := uint8_t c1
        match receive_loop message_len 0 u2 s.pkt.buffer s.oob with
        | .returned (u3, buffer, oob) =>
          .returned (message_len, ⟨u3, ⟨magic, message_len, buffer⟩, oob⟩)
        | .blocked => .blocked
        | .timeout => .timeout

/-- Function `receive_board_nonce(NONCE_PACKET *nonce)`. -/
def receive_board_nonce (s : Board NONCE_PACKET) :
    Outcome (Nat × Board NONCE_PACKET) :=
  match UARTCharGet s.uart with
  | none => .blocked
  | some (c0, u1) =>
    let message_len := uint8_t c0
    match receive_loop message_len 0 u1 s.pkt.buffer s.oob with
    | .returned (u2, buffer, oob) =>
      .returned (message_len, ⟨u2, ⟨message_len, buffer⟩, oob⟩)
    | .blocked => .blocked
    | .timeout => .timeout

/-- Loop of `receive_board_message_by_type`:
`do { receive_board_message(message); } while (message->magic != type);`
where `fuel` bounds the number of iterations. -/
def by_type_loop (type : Nat) : Nat → Board MESSAGE_PACKET →
    Outcome (Board MESSAGE_PACKET)
  | 0, _ => .timeout
  | fuel + 1, s =>
    match receive_board_message s with
    | .returned (_, s1) =>
      if s1.pkt.magic ≠ type then by_type_loop type fuel s1 else .returned s1
    | .blocked => .blocked
    | .timeout => .timeout

/-- Function `receive_board_message_by_type(MESSAGE_PACKET *message, uint8_t type)`. -/
def receive_board_message_by_type (fuel : Nat) (s : Board MESSAGE_PACKET)
    (type : Nat) : Outcome (Nat × Board MESSAGE_PACKET) :=
  match by_type_loop type fuel s with
  | .returned s1 => .returned (s1.pkt.message_len, s1)
  | .blocked => .blocked
  | .timeout => .timeout

/-! ## Specification vocabulary -/

/-- The effect of the receive loop on the buffer and on the log, as a fold of
`store` over the bytes that arrive (first byte at index `i`). -/
def store_all : List Nat → Nat → List Nat → List Nat → List Nat × List Nat
  | [], _, buffer, oob => (buffer, oob)
  | c :: cs, i, buffer, oob =>
    let (buffer1, oob1) := store buffer oob i (uint8_t c)
    store_all cs (i + 1) buffer1 oob1

/-- Every element of the list is a byte. -/
def Bytes (xs : List Nat) : Prop := ∀ b ∈ xs, b < 256

instance (xs : List Nat) : Decidable (Bytes xs) := by
  unfold Bytes; infer_instance

/-- The fields of the packet fit their C type `uint8_t`. -/
def MESSAGE_PACKET.WellFormed (p : MESSAGE_PACKET) : Prop :=
  p.magic < 256 ∧ p.message_len < 256 ∧ Bytes p.buffer

instance (p : MESSAGE_PACKET) : Decidable p.WellFormed := by
  unfold MESSAGE_PACKET.WellFormed; infer_instance

/-- A frame on the wire: a type byte and a payload. -/
structure Frame where
  magic : Nat
  payload : List Nat
deriving DecidableEq, Repr

/-- Wire image of a frame: `magic`, `message_len`, then the payload. -/
def Frame.wire (f : Frame) : List Nat :=
  f.magic :: f.payload.length :: f.payload

/-- A well-formed frame: the magic is a byte other than the reserved value `0`,
the length fits one byte, and the payload is made of bytes. -/
def Frame.WellFormed (f : Frame) : Prop :=
  f.magic ≠ 0 ∧ f.magic < 256 ∧ f.payload.length < 256 ∧ Bytes f.payload

instance (f : Frame) : Decidable f.WellFormed := by
  unfold Frame.WellFormed; infer_instance

/-- Wire image of a sequence of frames, back to back. -/
def wires : List Frame → List Nat
  | [] => []
  | f :: fs => f.wire ++ wires fs

/-- The packet and the log after a sequence of frames has been received one
after the other, each over the previous one. -/
def after_frames : List Frame → MESSAGE_PACKET → List Nat → MESSAGE_PACKET × List Nat
  | [], pkt, oob => (pkt, oob)
  | f :: fs, pkt, oob =>
    after_frames fs
      ⟨f.magic, f.payload.length, (store_all f.payload 0 pkt.buffer oob).1⟩
      (store_all f.payload 0 pkt.buffer oob).2

/-- The length a packet holds after a sequence of frames was received into it:
that of the last frame, or the initial `message_len` when there was none. -/
def stale_len (frames : List Frame) (pkt : MESSAGE_PACKET) : Nat :=
  match frames.getLast? with
  | some f => f.payload.length
  | none => pkt.message_len

/-! ## Lemmas on the model -/

theorem uint8_t_of_lt {x : Nat} (h : x < 256) : uint8_t x = x :=
  Nat.mod_eq_of_lt h

theorem map_uint8_t_of_bytes {xs : List Nat} (h : Bytes xs) : xs.map uint8_t = xs := by
  induction xs with
  | nil => rfl
  | cons x xs ih =>
    have hx : x < 256 := h x (List.mem_cons_self x xs)
    have hxs : Bytes xs := fun b hb => h b (List.mem_cons_of_mem x hb)
    simp [uint8_t_of_lt hx, ih hxs]

/-- The receive loop, given the bytes it needs, returns and leaves what follows
them in the receive queue. -/
theorem receive_loop_eq (xs : List Nat) : ∀ (i : Nat) (rest tx buffer oob : List Nat),
    receive_loop xs.length i ⟨xs ++ rest, tx⟩ buffer oob
      = .returned (⟨rest, tx⟩, store_all xs i buffer oob) := by
  induction xs with
  | nil => intro i rest tx buffer oob; rfl
  | cons c cs ih =>
    intro i rest tx buffer oob
    simp only [List.length_cons, List.cons_append, receive_loop, UARTCharGet, store_all]
    exact ih (i + 1) rest tx _ _

/-- Stores that stay inside the buffer overwrite the cells `i .. i + n - 1` with
the arriving bytes and log nothing. -/
theorem store_all_in_bounds (xs : List Nat) : ∀ (i : Nat) (buffer oob : List Nat),
    i + xs.length ≤ buffer.length →
    store_all xs i buffer oob
      = (buffer.take i ++ xs.map uint8_t ++ buffer.drop (i + xs.length), oob) := by
  induction xs with
  | nil => intro i buffer oob _; simp [store_all]
  | cons c cs ih =>
    intro i buffer oob h
    simp only [List.length_cons] at h
    have hi : i < buffer.length := by omega
    simp only [store_all, store, if_pos hi]
    rw [ih (i + 1) (buffer.set i (uint8_t c)) oob (by simp; omega)]
    congr 1
    rw [List.set_eq_take_append_cons_drop, if_pos hi]
    have hlen : (List.take i buffer).length = i := by simp; omega
    rw [List.take_append_eq_append_take, List.drop_append_eq_append_drop]
    simp [hlen, List.take_take]
    have e1 : i + 1 + cs.length - i = cs.length + 1 := by omega
    have e2 : i + (cs.length + 1) = cs.length + (i + 1) := by omega
    rw [e1, List.drop_succ_cons, List.drop_drop, e2]
    have e3 : i + 1 + cs.length = cs.length + (i + 1) := by omega
    rw [e3, List.drop_eq_nil_of_le (by rw [hlen]; omega), List.nil_append]

/-- The send loop, reading inside the buffer, appends the cells
`i .. i + k - 1` to the transmit queue and logs nothing. -/
theorem send_loop_in_bounds : ∀ (k i : Nat) (u : UART) (buffer oob : List Nat),
    i + k ≤ buffer.length →
    send_loop k i u buffer oob = (⟨u.rx, u.tx ++ (buffer.drop i).take k⟩, oob) := by
  intro k
  induction k with
  | zero => intro i u buffer oob _; simp [send_loop]
  | succ k ih =>
    intro i u buffer oob h
    have hi : i < buffer.length := by omega
    simp only [send_loop, load, if_pos hi]
    rw [ih (i + 1) _ buffer oob (by omega)]
    simp only [UARTCharPut, List.append_assoc, List.singleton_append]
    rw [List.drop_eq_getElem_cons hi, List.take_succ_cons, List.getD_eq_getElem buffer 0 hi]

/-- The send loop writes one byte per iteration, whatever the buffer holds, and
never touches the receive queue. -/
theorem send_loop_count : ∀ (k i : Nat) (u : UART) (buffer oob : List Nat),
    ∃ payload : List Nat,
      (send_loop k i u buffer oob).1 = ⟨u.rx, u.tx ++ payload⟩ ∧ payload.length = k := by
  intro k
  induction k with
  | zero => intro i u buffer oob; exact ⟨[], by simp [send_loop], rfl⟩
  | succ k ih =>
    intro i u buffer oob
    obtain ⟨payload, h1, h2⟩ :=
      ih (i + 1) (UARTCharPut u (load buffer oob i).1) buffer (load buffer oob i).2
    refine ⟨(load buffer oob i).1 :: payload, ?_, by simp [h2]⟩
    simp only [send_loop]
    rw [h1]
    simp [UARTCharPut]

/-- What `send_board_message` leaves in the transmit queue when the length fits
the buffer. -/
theorem send_board_message_eq (s : Board MESSAGE_PACKET)
    (h : s.pkt.message_len ≤ s.pkt.buffer.length) :
    send_board_message s
      = (s.pkt.message_len,
          ⟨⟨s.uart.rx, s.uart.tx ++
              (s.pkt.magic :: s.pkt.message_len :: s.pkt.buffer.take s.pkt.message_len)⟩,
            s.pkt, s.oob⟩) := by
  simp only [send_board_message]
  rw [send_loop_in_bounds _ 0 _ _ _ (by omega)]
  simp [UARTCharPut]

/-- Reception of a frame whose magic is not the sentinel: two header bytes, then
as many payload bytes as the length byte says. -/
theorem receive_board_message_eq (m n : Nat) (xs rest tx oob : List Nat)
    (pkt : MESSAGE_PACKET) (hm : uint8_t m ≠ 0) (hn : xs.length = uint8_t n) :
    receive_board_message ⟨⟨m :: n :: (xs ++ rest), tx⟩, pkt, oob⟩
      = .returned (uint8_t n,
          ⟨⟨rest, tx⟩, ⟨uint8_t m, uint8_t n, (store_all xs 0 pkt.buffer oob).1⟩,
            (store_all xs 0 pkt.buffer oob).2⟩) := by
  simp only [receive_board_message, UARTCharGet, if_neg hm]
  rw [← hn, receive_loop_eq xs 0 rest tx pkt.buffer oob]

/-- Reception when the first byte is the sentinel. -/
theorem receive_board_message_sentinel (rest tx oob : List Nat) (pkt : MESSAGE_PACKET) :
    receive_board_message ⟨⟨0 :: rest, tx⟩, pkt, oob⟩
      = .returned (0, ⟨⟨rest, tx⟩, ⟨0, pkt.message_len, pkt.buffer⟩, oob⟩) := by
  simp [receive_board_message, UARTCharGet, uint8_t]

/-- Reception of a nonce: one length byte, then that many payload bytes. -/
theorem receive_board_nonce_eq (n : Nat) (xs rest tx oob : List Nat)
    (pkt : NONCE_PACKET) (hn : xs.length = uint8_t n) :
    receive_board_nonce ⟨⟨n :: (xs ++ rest), tx⟩, pkt, oob⟩
      = .returned (uint8_t n,
          ⟨⟨rest, tx⟩, ⟨uint8_t n, (store_all xs 0 pkt.buffer oob).1⟩,
            (store_all xs 0 pkt.buffer oob).2⟩) := by
  simp only [receive_board_nonce, UARTCharGet]
  rw [← hn, receive_loop_eq xs 0 rest tx pkt.buffer oob]

/-- A list that holds at least `n` elements splits into its first `n` elements
and the rest. -/
theorem split_at_length {n : Nat} {l : List Nat} (h : n ≤ l.length) :
    l = l.take n ++ l.drop n ∧ (l.take n).length = n :=
  ⟨(List.take_append_drop n l).symm, by simp; omega⟩

/-- The receive loop never changes the capacity of the buffer. -/
theorem store_all_length (xs : List Nat) : ∀ (i : Nat) (buffer oob : List Nat),
    (store_all xs i buffer oob).1.length = buffer.length := by
  induction xs with
  | nil => intro i buffer oob; rfl
  | cons c cs ih =>
    intro i buffer oob
    simp only [store_all, store]
    split
    · rw [ih]; simp
    · rw [ih]

/-- Reception of one well-formed frame from the head of the stream. -/
theorem receive_board_message_frame (f : Frame) (rest tx oob : List Nat)
    (pkt : MESSAGE_PACKET) (hf : f.WellFormed) :
    receive_board_message ⟨⟨f.wire ++ rest, tx⟩, pkt, oob⟩
      = .returned (f.payload.length,
          ⟨⟨rest, tx⟩, ⟨f.magic, f.payload.length, (store_all f.payload 0 pkt.buffer oob).1⟩,
            (store_all f.payload 0 pkt.buffer oob).2⟩) := by
  obtain ⟨h0, hm, hl, _⟩ := hf
  have h := receive_board_message_eq f.magic f.payload.length f.payload rest tx oob pkt
    (by rw [uint8_t_of_lt hm]; exact h0) (by rw [uint8_t_of_lt hl])
  rw [uint8_t_of_lt hm, uint8_t_of_lt hl] at h
  simpa [Frame.wire] using h

/-- A well-formed frame that fits the buffer lands in its first cells and logs
nothing. -/
theorem store_all_frame (f : Frame) (buffer oob : List Nat) (hf : f.WellFormed)
    (hcap : f.payload.length ≤ buffer.length) :
    store_all f.payload 0 buffer oob
      = (f.payload ++ buffer.drop f.payload.length, oob) := by
  rw [store_all_in_bounds _ 0 buffer oob (by omega), map_uint8_t_of_bytes hf.2.2.2]
  simp

/-- The filtering loop on a stream of well-formed non-matching frames followed
by a well-formed matching frame `F`: with fuel for one call per frame it returns
at `F`, leaving what follows `F` unread. -/
theorem by_type_loop_frames (T : Nat) (F : Frame) (rest tx : List Nat)
    (hF : F.WellFormed) (hFT : F.magic = T) :
    ∀ (frames : List Frame) (fuel : Nat) (pkt : MESSAGE_PACKET) (oob : List Nat),
      (∀ f ∈ frames, f.WellFormed ∧ f.magic ≠ T) → frames.length < fuel →
      ∃ (buffer oob1 : List Nat),
        by_type_loop T fuel ⟨⟨wires frames ++ F.wire ++ rest, tx⟩, pkt, oob⟩
          = .returned ⟨⟨rest, tx⟩, ⟨T, F.payload.length, buffer⟩, oob1⟩
        ∧ buffer.length = pkt.buffer.length
        ∧ ((∀ f ∈ frames, f.payload.length ≤ pkt.buffer.length) →
            F.payload.length ≤ pkt.buffer.length →
            buffer.take F.payload.length = F.payload ∧ oob1 = oob) := by
  intro frames
  induction frames with
  | nil =>
    intro fuel pkt oob _ hfuel
    obtain ⟨fuel, rfl⟩ : ∃ k, fuel = k + 1 := ⟨fuel - 1, by simp at hfuel; omega⟩
    refine ⟨(store_all F.payload 0 pkt.buffer oob).1, (store_all F.payload 0 pkt.buffer oob).2,
      ?_, store_all_length F.payload 0 pkt.buffer oob, ?_⟩
    · simp only [wires, List.nil_append, by_type_loop,
        receive_board_message_frame F rest tx oob pkt hF]
      simp [hFT]
    · intro _ hcap
      rw [store_all_frame F pkt.buffer oob hF hcap]
      simp
  | cons f fs ih =>
    intro fuel pkt oob hall hfuel
    obtain ⟨fuel, rfl⟩ : ∃ k, fuel = k + 1 := ⟨fuel - 1, by simp at hfuel; omega⟩
    have hf := hall f (List.mem_cons_self f fs)
    have hfs : ∀ g ∈ fs, g.WellFormed ∧ g.magic ≠ T :=
      fun g hg => hall g (List.mem_cons_of_mem f hg)
    obtain ⟨buffer, oob1, hrun, hlen, hfit⟩ := ih fuel
      ⟨f.magic, f.payload.length, (store_all f.payload 0 pkt.buffer oob).1⟩
      (store_all f.payload 0 pkt.buffer oob).2 hfs (by simp at hfuel; omega)
    refine ⟨buffer, oob1, ?_, ?_, ?_⟩
    · have hstream : wires (f :: fs) ++ F.wire ++ rest
          = f.wire ++ (wires fs ++ F.wire ++ rest) := by
        simp [wires, List.append_assoc]
      rw [hstream]
      simp only [by_type_loop, receive_board_message_frame f _ tx oob pkt hf.1]
      simp only [ne_eq, hf.2, not_false_eq_true, if_true]
      exact hrun
    · rw [hlen]; exact store_all_length f.payload 0 pkt.buffer oob
    · intro hcaps hcapF
      have hcapf : f.payload.length ≤ pkt.buffer.length :=
        hcaps f (List.mem_cons_self f fs)
      have hst := store_all_frame f pkt.buffer oob hf.1 hcapf
      have hlen1 : (store_all f.payload 0 pkt.buffer oob).1.length = pkt.buffer.length :=
        store_all_length f.payload 0 pkt.buffer oob
      obtain ⟨h1, h2⟩ := hfit
        (fun g hg => by
          show g.payload.length ≤ (store_all f.payload 0 pkt.buffer oob).1.length
          rw [hlen1]; exact hcaps g (List.mem_cons_of_mem f hg))
        (by show F.payload.length ≤ (store_all f.payload 0 pkt.buffer oob).1.length
            rw [hlen1]; exact hcapF)
      exact ⟨h1, by rw [h2, hst]⟩

/-- The log after the receive loop: the stores at indices at or past the
capacity, in order. -/
theorem store_all_oob (xs : List Nat) : ∀ (i : Nat) (buffer oob : List Nat),
    (store_all xs i buffer oob).2
      = oob ++ List.range' (max i buffer.length) (i + xs.length - max i buffer.length) := by
  induction xs with
  | nil =>
    intro i buffer oob
    have h : i + 0 - max i buffer.length = 0 := by omega
    simp [store_all, h]
  | cons c cs ih =>
    intro i buffer oob
    simp only [store_all, store, List.length_cons]
    by_cases hi : i < buffer.length
    · simp only [if_pos hi]
      rw [ih, List.length_set]
      have h1 : max (i + 1) buffer.length = max i buffer.length := by omega
      have h2 : i + 1 + cs.length = i + (cs.length + 1) := by omega
      rw [h1, h2]
    · simp only [if_neg hi]
      rw [ih]
      have h1 : max (i + 1) buffer.length = i + 1 := by omega
      have h2 : max i buffer.length = i := by omega
      have h3 : i + 1 + cs.length - (i + 1) = cs.length := by omega
      have h4 : i + (cs.length + 1) - i = cs.length + 1 := by omega
      rw [h1, h2, h3, h4, List.range'_succ, List.append_assoc, List.singleton_append]

/-- An iteration of the filtering loop that reads the sentinel, for a target
type other than `0`: the loop goes on with the next byte. -/
theorem by_type_loop_sentinel (T fuel : Nat) (rest tx oob : List Nat)
    (pkt : MESSAGE_PACKET) (hT : T ≠ 0) :
    by_type_loop T (fuel + 1) ⟨⟨0 :: rest, tx⟩, pkt, oob⟩
      = by_type_loop T fuel ⟨⟨rest, tx⟩, ⟨0, pkt.message_len, pkt.buffer⟩, oob⟩ := by
  simp only [by_type_loop, receive_board_message_sentinel]
  have h : (0 : Nat) ≠ T := fun h => hT h.symm
  simp [h]

/-- An iteration of the filtering loop that reads the sentinel, for the target
type `0`: the loop exits. -/
theorem by_type_loop_sentinel_zero (fuel : Nat) (rest tx oob : List Nat)
    (pkt : MESSAGE_PACKET) :
    by_type_loop 0 (fuel + 1) ⟨⟨0 :: rest, tx⟩, pkt, oob⟩
      = .returned ⟨⟨rest, tx⟩, ⟨0, pkt.message_len, pkt.buffer⟩, oob⟩ := by
  simp [by_type_loop, receive_board_message_sentinel]

/-- The filtering loop spends one iteration on each well-formed frame whose
magic differs from the target type, and goes on after them. -/
theorem by_type_loop_skip (T : Nat) (rest tx : List Nat) :
    ∀ (frames : List Frame) (fuel : Nat) (pkt : MESSAGE_PACKET) (oob : List Nat),
      (∀ f ∈ frames, f.WellFormed ∧ f.magic ≠ T) →
      by_type_loop T (frames.length + fuel) ⟨⟨wires frames ++ rest, tx⟩, pkt, oob⟩
        = by_type_loop T fuel
            ⟨⟨rest, tx⟩, (after_frames frames pkt oob).1, (after_frames frames pkt oob).2⟩ := by
  intro frames
  induction frames with
  | nil => intro fuel pkt oob _; simp [wires, after_frames]
  | cons f fs ih =>
    intro fuel pkt oob hall
    have hf := hall f (List.mem_cons_self f fs)
    have hfs : ∀ g ∈ fs, g.WellFormed ∧ g.magic ≠ T :=
      fun g hg => hall g (List.mem_cons_of_mem f hg)
    have hfuel : (f :: fs).length + fuel = (fs.length + fuel) + 1 := by
      simp only [List.length_cons]; omega
    have hstream : wires (f :: fs) ++ rest = f.wire ++ (wires fs ++ rest) := by
      simp [wires, List.append_assoc]
    rw [hfuel, hstream]
    simp only [by_type_loop, receive_board_message_frame f _ tx oob pkt hf.1]
    simp only [ne_eq, hf.2, not_false_eq_true, if_true]
    rw [ih fuel _ _ hfs]
    rfl

/-- With fuel for no more iterations than there are non-matching frames at the
head of the stream, the filtering loop is still running when the fuel is out. -/
theorem by_type_loop_short (T : Nat) (rest tx : List Nat) :
    ∀ (frames : List Frame) (fuel : Nat) (pkt : MESSAGE_PACKET) (oob : List Nat),
      (∀ f ∈ frames, f.WellFormed ∧ f.magic ≠ T) → fuel ≤ frames.length →
      by_type_loop T fuel ⟨⟨wires frames ++ rest, tx⟩, pkt, oob⟩ = .timeout := by
  intro frames
  induction frames with
  | nil =>
    intro fuel pkt oob _ hfuel
    have h0 : fuel = 0 := by simpa using hfuel
    subst h0
    rfl
  | cons f fs ih =>
    intro fuel pkt oob hall hfuel
    cases fuel with
    | zero => rfl
    | succ fuel =>
      have hf := hall f (List.mem_cons_self f fs)
      have hfs : ∀ g ∈ fs, g.WellFormed ∧ g.magic ≠ T :=
        fun g hg => hall g (List.mem_cons_of_mem f hg)
      have hstream : wires (f :: fs) ++ rest = f.wire ++ (wires fs ++ rest) := by
        simp [wires, List.append_assoc]
      rw [hstream]
      simp only [by_type_loop, receive_board_message_frame f _ tx oob pkt hf.1]
      simp only [ne_eq, hf.2, not_false_eq_true, if_true]
      exact ih fuel _ _ hfs (by simpa using hfuel)

/-- The length held by the packet after a sequence of frames. -/
theorem after_frames_message_len : ∀ (frames : List Frame) (pkt : MESSAGE_PACKET)
    (oob : List Nat),
    (after_frames frames pkt oob).1.message_len = stale_len frames pkt := by
  intro frames
  induction frames with
  | nil => intro pkt oob; rfl
  | cons f fs ih =>
    intro pkt oob
    simp only [after_frames]
    rw [ih]
    cases fs with
    | nil => rfl
    | cons g gs =>
      simp only [stale_len, List.getLast?_cons_cons]
      cases hlast : (g :: gs).getLast? with
      | none => simp at hlast
      | some x => rfl

/-- Frames that fit the buffer, received one after the other: no store falls
past the buffer, the capacity is unchanged, and the buffer starts with the
payload of the last frame. -/
theorem after_frames_in_bounds : ∀ (frames : List Frame) (pkt : MESSAGE_PACKET)
    (oob : List Nat),
    (∀ f ∈ frames, f.WellFormed ∧ f.payload.length ≤ pkt.buffer.length) →
    (after_frames frames pkt oob).2 = oob
      ∧ (after_frames frames pkt oob).1.buffer.length = pkt.buffer.length
      ∧ (∀ g, frames.getLast? = some g →
          (after_frames frames pkt oob).1.buffer.take g.payload.length = g.payload) := by
  intro frames
  induction frames with
  | nil => intro pkt oob _; exact ⟨rfl, rfl, fun g hg => by simp at hg⟩
  | cons f fs ih =>
    intro pkt oob hall
    have hf := hall f (List.mem_cons_self f fs)
    have hst := store_all_frame f pkt.buffer oob hf.1 hf.2
    have hlen1 : (store_all f.payload 0 pkt.buffer oob).1.length = pkt.buffer.length :=
      store_all_length f.payload 0 pkt.buffer oob
    obtain ⟨h1, h2, h3⟩ := ih
      ⟨f.magic, f.payload.length, (store_all f.payload 0 pkt.buffer oob).1⟩
      (store_all f.payload 0 pkt.buffer oob).2
      (fun g hg => ⟨(hall g (List.mem_cons_of_mem f hg)).1, by
        show g.payload.length ≤ (store_all f.payload 0 pkt.buffer oob).1.length
        rw [hlen1]; exact (hall g (List.mem_cons_of_mem f hg)).2⟩)
    simp only [after_frames]
    refine ⟨by rw [h1, hst], by rw [h2]; exact hlen1, ?_⟩
    intro g hg
    cases fs with
    | nil =>
      simp only [List.getLast?_singleton, Option.some.injEq] at hg
      subst hg
      simp only [after_frames]
      rw [hst]
      simp
    | cons g1 gs =>
      rw [List.getLast?_cons_cons] at hg
      exact h3 g hg

/-! ## Sending and receiving one packet -/

/-- C1: round trip.  For a packet `P` whose fields are bytes, with `magic ≠ 0`
and `message_len` within the capacity of its own buffer and of the destination
buffer, and for any initial destination packet `D`, `receive_board_message` run
on exactly the bytes `send_board_message` wrote for `P` returns `P.message_len`,
drains the stream, and leaves `magic = P.magic`, `message_len = P.message_len`
and the first `message_len` buffer bytes equal to those of `P`, in order. -/
theorem receive_send_round_trip (P D : MESSAGE_PACKET) (rx0 tx1 : List Nat)
    (hP : P.WellFormed) (hmagic : P.magic ≠ 0)
    (hcapP : P.message_len ≤ P.buffer.length)
    (hcapD : P.message_len ≤ D.buffer.length) :
    ∃ buffer : List Nat,
      receive_board_message
          ⟨⟨(send_board_message ⟨⟨rx0, []⟩, P, []⟩).2.uart.tx, tx1⟩, D, []⟩
        = .returned (P.message_len, ⟨⟨[], tx1⟩, ⟨P.magic, P.message_len, buffer⟩, []⟩)
      ∧ buffer.take P.message_len = P.buffer.take P.message_len
      ∧ buffer.length = D.buffer.length := by
  obtain ⟨hm, hl, hb⟩ := hP
  have hxs : (P.buffer.take P.message_len).length = P.message_len := by simp; omega
  have hbytes : Bytes (P.buffer.take P.message_len) :=
    fun b hb1 => hb b (List.mem_of_mem_take hb1)
  have hm0 : uint8_t P.magic ≠ 0 := by rw [uint8_t_of_lt hm]; exact hmagic
  have hrecv := receive_board_message_eq P.magic P.message_len
    (P.buffer.take P.message_len) [] tx1 [] D hm0 (by rw [hxs, uint8_t_of_lt hl])
  rw [store_all_in_bounds _ 0 D.buffer [] (by rw [hxs]; omega),
    map_uint8_t_of_bytes hbytes, uint8_t_of_lt hm, uint8_t_of_lt hl] at hrecv
  rw [send_board_message_eq _ hcapP]
  simp only [List.nil_append, List.append_nil, List.take_zero, Nat.zero_add] at hrecv ⊢
  refine ⟨_, hrecv, ?_, ?_⟩
  · rw [List.take_append_of_le_length (by rw [hxs]), List.take_take, Nat.min_self]
  · rw [List.length_append, List.length_drop, hxs]; omega

/-- C1 at the packet of the specification's scenario. -/
theorem receive_send_round_trip_witness :
    (MESSAGE_PACKET.WellFormed ⟨3, 4, [0xAA, 0xBB, 0xCC, 0xDD]⟩ ∧ (3 : Nat) ≠ 0
      ∧ 4 ≤ [0xAA, 0xBB, 0xCC, 0xDD].length ∧ 4 ≤ [1, 2, 3, 4, 5].length)
    ∧ ∃ buffer : List Nat,
      receive_board_message
          ⟨⟨(send_board_message
              ⟨⟨[], []⟩, ⟨3, 4, [0xAA, 0xBB, 0xCC, 0xDD]⟩, []⟩).2.uart.tx, []⟩,
            ⟨9, 9, [1, 2, 3, 4, 5]⟩, []⟩
        = .returned (4, ⟨⟨[], []⟩, ⟨3, 4, buffer⟩, []⟩)
      ∧ buffer.take 4 = [0xAA, 0xBB, 0xCC, 0xDD].take 4
      ∧ buffer.length = [1, 2, 3, 4, 5].length :=
  ⟨by decide,
   receive_send_round_trip ⟨3, 4, [0xAA, 0xBB, 0xCC, 0xDD]⟩ ⟨9, 9, [1, 2, 3, 4, 5]⟩ [] []
     (by decide) (by decide) (by decide) (by decide)⟩

/-- C2: wire image.  When `message_len` is within the buffer capacity,
`send_board_message` appends to the transmit queue exactly `magic`, then
`message_len`, then the first `message_len` buffer bytes in order, which is
`message_len + 2` bytes, and nothing else; it reads nothing from the channel. -/
theorem send_board_message_wire (s : Board MESSAGE_PACKET)
    (h : s.pkt.message_len ≤ s.pkt.buffer.length) :
    (send_board_message s).2.uart.tx
        = s.uart.tx ++
          (s.pkt.magic :: s.pkt.message_len :: s.pkt.buffer.take s.pkt.message_len)
      ∧ (send_board_message s).2.uart.tx.length
        = s.uart.tx.length + (s.pkt.message_len + 2)
      ∧ (send_board_message s).2.uart.rx = s.uart.rx := by
  rw [send_board_message_eq s h]
  refine ⟨rfl, ?_, rfl⟩
  simp only [List.length_append, List.length_cons, List.length_take]
  omega

/-- C2 at the packet of the specification's scenario: the wire bytes are
`[0x03, 0x04, 0xAA, 0xBB, 0xCC, 0xDD]`. -/
theorem send_board_message_wire_witness :
    4 ≤ [0xAA, 0xBB, 0xCC, 0xDD].length
    ∧ ((send_board_message ⟨⟨[], []⟩, ⟨3, 4, [0xAA, 0xBB, 0xCC, 0xDD]⟩, []⟩).2.uart.tx
        = [] ++ (3 :: 4 :: [0xAA, 0xBB, 0xCC, 0xDD].take 4)
      ∧ (send_board_message ⟨⟨[], []⟩, ⟨3, 4, [0xAA, 0xBB, 0xCC, 0xDD]⟩, []⟩).2.uart.tx.length
        = ([] : List Nat).length + (4 + 2)
      ∧ (send_board_message ⟨⟨[], []⟩, ⟨3, 4, [0xAA, 0xBB, 0xCC, 0xDD]⟩, []⟩).2.uart.rx
        = []) :=
  ⟨by decide,
   send_board_message_wire ⟨⟨[], []⟩, ⟨3, 4, [0xAA, 0xBB, 0xCC, 0xDD]⟩, []⟩ (by decide)⟩

/-- C3: sentinel short-circuit.  When the first byte of the stream is `0`,
`receive_board_message` returns `0`; `message_len` and the whole buffer are as
before the call, and `magic` is `0`. -/
theorem receive_board_message_sentinel_keeps_packet
    (rest tx oob : List Nat) (pkt : MESSAGE_PACKET) :
    ∃ s1 : Board MESSAGE_PACKET,
      receive_board_message ⟨⟨0 :: rest, tx⟩, pkt, oob⟩ = .returned (0, s1)
      ∧ s1.pkt.magic = 0
      ∧ s1.pkt.message_len = pkt.message_len
      ∧ s1.pkt.buffer = pkt.buffer :=
  ⟨_, receive_board_message_sentinel rest tx oob pkt, rfl, rfl, rfl⟩

/-- C4: when the first byte of the stream is `0`, `receive_board_message`
returns having consumed that one byte only: the receive queue after the call
is the input stream without its first byte. -/
theorem receive_board_message_sentinel_consumes_one
    (rest tx oob : List Nat) (pkt : MESSAGE_PACKET) :
    ∃ (r : Nat) (s1 : Board MESSAGE_PACKET),
      receive_board_message ⟨⟨0 :: rest, tx⟩, pkt, oob⟩ = .returned (r, s1)
      ∧ s1.uart.rx = rest
      ∧ s1.uart.rx.length + 1 = (0 :: rest).length :=
  ⟨_, _, receive_board_message_sentinel rest tx oob pkt, rfl, rfl⟩

/-- C5: exact consumption.  When the stream starts with a magic byte `m ≠ 0`
and a length byte `n ≤ 255` within the capacity of the destination buffer, and
holds at least `n + 2` bytes, `receive_board_message` returns `n` having
consumed exactly the first `n + 2` bytes, with no store past the buffer. -/
theorem receive_board_message_consumes (m n : Nat) (tail tx oob : List Nat)
    (pkt : MESSAGE_PACKET) (hm0 : m ≠ 0) (hm : m < 256) (hn : n ≤ 255)
    (hcap : n ≤ pkt.buffer.length)
    (hlen : n + 2 ≤ (m :: n :: tail).length) :
    ∃ s1 : Board MESSAGE_PACKET,
      receive_board_message ⟨⟨m :: n :: tail, tx⟩, pkt, oob⟩ = .returned (n, s1)
      ∧ s1.uart.rx = (m :: n :: tail).drop (n + 2)
      ∧ s1.uart.rx.length + (n + 2) = (m :: n :: tail).length
      ∧ s1.oob = oob := by
  simp only [List.length_cons] at hlen
  have hnt : n ≤ tail.length := by omega
  obtain ⟨hsplit, htake⟩ := split_at_length hnt
  have hn8 : uint8_t n = n := uint8_t_of_lt (by omega)
  have hrecv := receive_board_message_eq m n (tail.take n) (tail.drop n) tx oob pkt
    (by rw [uint8_t_of_lt hm]; exact hm0) (by rw [htake, hn8])
  rw [← hsplit, hn8,
    store_all_in_bounds _ 0 pkt.buffer oob (by rw [htake]; omega)] at hrecv
  refine ⟨_, hrecv, by simp, ?_, rfl⟩
  simp only [List.length_drop, List.length_cons]
  omega

/-- C5 at a two-byte stream with `n = 0`: exactly the magic and the zero length
are consumed. -/
theorem receive_board_message_consumes_witness :
    ((7 : Nat) ≠ 0 ∧ 7 < 256 ∧ 0 ≤ 255 ∧ 0 ≤ ([] : List Nat).length
      ∧ 0 + 2 ≤ [7, 0, 5, 6].length)
    ∧ ∃ s1 : Board MESSAGE_PACKET,
      receive_board_message ⟨⟨7 :: 0 :: [5, 6], []⟩, ⟨0, 0, []⟩, []⟩ = .returned (0, s1)
      ∧ s1.uart.rx = (7 :: 0 :: [5, 6]).drop (0 + 2)
      ∧ s1.uart.rx.length + (0 + 2) = (7 :: 0 :: [5, 6]).length
      ∧ s1.oob = [] :=
  ⟨by decide,
   receive_board_message_consumes 7 0 [5, 6] [] [] ⟨0, 0, []⟩
     (by decide) (by decide) (by decide) (by decide) (by decide)⟩

/-- C6: what a reception stores.  For a stream of bytes `b0, b1, b2, ...` with
`b0 ≠ 0`, `b1` within the buffer capacity and at least `b1` bytes after `b1`,
`receive_board_message` returns `b1` with `magic = b0`, `message_len = b1` and
`buffer[i] = b(2+i)` for every `i < b1`; no store falls past the buffer. -/
theorem receive_board_message_fills (b0 b1 : Nat) (tail tx oob : List Nat)
    (pkt : MESSAGE_PACKET) (hbytes : Bytes (b0 :: b1 :: tail)) (h0 : b0 ≠ 0)
    (hcap : b1 ≤ pkt.buffer.length) (hlen : b1 ≤ tail.length) :
    ∃ s1 : Board MESSAGE_PACKET,
      receive_board_message ⟨⟨b0 :: b1 :: tail, tx⟩, pkt, oob⟩ = .returned (b1, s1)
      ∧ s1.pkt.magic = b0
      ∧ s1.pkt.message_len = b1
      ∧ (∀ i, i < b1 → s1.pkt.buffer[i]? = tail[i]?)
      ∧ s1.oob = oob := by
  have hb0 : b0 < 256 := hbytes b0 (by simp)
  have hb1 : b1 < 256 := hbytes b1 (by simp)
  have htail : Bytes (tail.take b1) :=
    fun b hb => hbytes b (by simp [List.mem_of_mem_take hb])
  obtain ⟨hsplit, htake⟩ := split_at_length hlen
  have hrecv := receive_board_message_eq b0 b1 (tail.take b1) (tail.drop b1) tx oob pkt
    (by rw [uint8_t_of_lt hb0]; exact h0) (by rw [htake, uint8_t_of_lt hb1])
  rw [← hsplit, store_all_in_bounds _ 0 pkt.buffer oob (by rw [htake]; omega),
    map_uint8_t_of_bytes htail, uint8_t_of_lt hb0, uint8_t_of_lt hb1] at hrecv
  refine ⟨_, hrecv, rfl, rfl, ?_, rfl⟩
  intro i hi
  simp only [List.take_zero, List.nil_append]
  rw [List.getElem?_append_left (by rw [htake]; exact hi), List.getElem?_take_of_lt hi]

/-- C6 at the stream of the specification's scenario. -/
theorem receive_board_message_fills_witness :
    (Bytes (3 :: 4 :: [0xAA, 0xBB, 0xCC, 0xDD]) ∧ (3 : Nat) ≠ 0
      ∧ 4 ≤ [1, 2, 3, 4, 5].length ∧ 4 ≤ [0xAA, 0xBB, 0xCC, 0xDD].length)
    ∧ ∃ s1 : Board MESSAGE_PACKET,
      receive_board_message
          ⟨⟨3 :: 4 :: [0xAA, 0xBB, 0xCC, 0xDD], []⟩, ⟨9, 9, [1, 2, 3, 4, 5]⟩, []⟩
        = .returned (4, s1)
      ∧ s1.pkt.magic = 3
      ∧ s1.pkt.message_len = 4
      ∧ (∀ i, i < 4 → s1.pkt.buffer[i]? = [0xAA, 0xBB, 0xCC, 0xDD][i]?)
      ∧ s1.oob = [] :=
  ⟨by decide,
   receive_board_message_fills 3 4 [0xAA, 0xBB, 0xCC, 0xDD] [] [] ⟨9, 9, [1, 2, 3, 4, 5]⟩
     (by decide) (by decide) (by decide) (by decide)⟩

/-- C7, as stated, fails: on a stream of five well-formed frames with magics
5, 7, 7, 2, 7, no run of `receive_board_message_by_type(msg, 7)` returns having
consumed exactly the first three frames.  (The call returns at the second
frame, the first whose magic is 7.) -/
theorem receive_board_message_by_type_scenario_counterexample :
    ¬ ∃ (fuel r : Nat) (s1 : Board MESSAGE_PACKET),
      receive_board_message_by_type fuel
          ⟨⟨wires [⟨5, [1]⟩, ⟨7, [8, 8]⟩, ⟨7, []⟩, ⟨2, [9]⟩, ⟨7, [1, 1]⟩], []⟩,
            ⟨0, 0, [0, 0, 0, 0]⟩, []⟩ 7
        = .returned (r, s1)
      ∧ s1.uart.rx = wires [⟨2, [9]⟩, ⟨7, [1, 1]⟩]
      ∧ s1.pkt.magic = 7 := by
  rintro ⟨fuel, r, s1, h, hrx, -⟩
  match fuel, h with
  | 0, h => simp [receive_board_message_by_type, by_type_loop] at h
  | 1, h =>
    have h1 : receive_board_message_by_type 1
        ⟨⟨wires [⟨5, [1]⟩, ⟨7, [8, 8]⟩, ⟨7, []⟩, ⟨2, [9]⟩, ⟨7, [1, 1]⟩], []⟩,
          ⟨0, 0, [0, 0, 0, 0]⟩, []⟩ 7 = .timeout := by decide
    rw [h1] at h
    cases h
  | k + 2, h =>
    have h2 : receive_board_message_by_type (k + 2)
        ⟨⟨wires [⟨5, [1]⟩, ⟨7, [8, 8]⟩, ⟨7, []⟩, ⟨2, [9]⟩, ⟨7, [1, 1]⟩], []⟩,
          ⟨0, 0, [0, 0, 0, 0]⟩, []⟩ 7
        = .returned (2, ⟨⟨wires [⟨7, []⟩, ⟨2, [9]⟩, ⟨7, [1, 1]⟩], []⟩,
            ⟨7, 2, [8, 8, 0, 0]⟩, []⟩) := rfl
    rw [h2] at h
    cases h
    revert hrx
    decide

/-- C7, amended: on a stream of five well-formed frames with magics 5, 7, 7, 2, 7
(followed by anything), the first two of them no longer than the buffer
capacity, `receive_board_message_by_type(msg, 7)` returns after consuming
exactly two frames, the discarded frame with magic 5 and the first frame with
magic 7; the other three frames stay in the channel, and on return
`msg.magic = 7`, the result and `message_len` are the length of the second
frame, the buffer starts with its payload, and no store fell past the buffer. -/
theorem receive_board_message_by_type_scenario (f1 f2 f3 f4 f5 : Frame)
    (rest tx oob : List Nat) (pkt : MESSAGE_PACKET) (fuel : Nat)
    (hwf : f1.WellFormed ∧ f2.WellFormed ∧ f3.WellFormed ∧ f4.WellFormed ∧ f5.WellFormed)
    (hmagics : [f1.magic, f2.magic, f3.magic, f4.magic, f5.magic] = [5, 7, 7, 2, 7])
    (hcap : f1.payload.length ≤ pkt.buffer.length ∧ f2.payload.length ≤ pkt.buffer.length)
    (hfuel : 2 ≤ fuel) :
    ∃ s1 : Board MESSAGE_PACKET,
      receive_board_message_by_type fuel
          ⟨⟨wires [f1, f2, f3, f4, f5] ++ rest, tx⟩, pkt, oob⟩ 7
        = .returned (f2.payload.length, s1)
      ∧ s1.uart.rx = wires [f3, f4, f5] ++ rest
      ∧ s1.pkt.magic = 7
      ∧ s1.pkt.message_len = f2.payload.length
      ∧ s1.pkt.buffer.take f2.payload.length = f2.payload
      ∧ s1.oob = oob := by
  obtain ⟨h1, h2, -, -, -⟩ := hwf
  simp only [List.cons.injEq, and_true] at hmagics
  obtain ⟨m1, m2, -, -, -⟩ := hmagics
  obtain ⟨buffer, oob1, hrun, -, hfit⟩ := by_type_loop_frames 7 f2
    (wires [f3, f4, f5] ++ rest) tx h2 m2 [f1] fuel pkt oob
    (fun f hf => by
      rw [List.mem_singleton] at hf
      subst hf
      exact ⟨h1, by rw [m1]; decide⟩)
    (by simpa using hfuel)
  obtain ⟨htake, hoob⟩ := hfit
    (fun f hf => by
      rw [List.mem_singleton] at hf
      subst hf
      exact hcap.1)
    hcap.2
  have hstream : wires [f1, f2, f3, f4, f5] ++ rest
      = wires [f1] ++ f2.wire ++ (wires [f3, f4, f5] ++ rest) := by
    simp [wires, List.append_assoc]
  refine ⟨⟨⟨wires [f3, f4, f5] ++ rest, tx⟩, ⟨7, f2.payload.length, buffer⟩, oob1⟩,
    ?_, rfl, rfl, rfl, htake, hoob⟩
  rw [hstream]
  simp only [receive_board_message_by_type, hrun]

/-- C7, amended, at a concrete stream. -/
theorem receive_board_message_by_type_scenario_witness :
    ((Frame.WellFormed ⟨5, [1]⟩ ∧ Frame.WellFormed ⟨7, [8, 8]⟩ ∧ Frame.WellFormed ⟨7, []⟩
        ∧ Frame.WellFormed ⟨2, [9]⟩ ∧ Frame.WellFormed ⟨7, [1, 1]⟩)
      ∧ [(5 : Nat), 7, 7, 2, 7] = [5, 7, 7, 2, 7]
      ∧ ([1].length ≤ [0, 0, 0, 0].length ∧ [8, 8].length ≤ [0, 0, 0, 0].length)
      ∧ 2 ≤ 2)
    ∧ ∃ s1 : Board MESSAGE_PACKET,
      receive_board_message_by_type 2
          ⟨⟨wires [⟨5, [1]⟩, ⟨7, [8, 8]⟩, ⟨7, []⟩, ⟨2, [9]⟩, ⟨7, [1, 1]⟩] ++ [], []⟩,
            ⟨0, 0, [0, 0, 0, 0]⟩, []⟩ 7
        = .returned ([8, 8].length, s1)
      ∧ s1.uart.rx = wires [⟨7, []⟩, ⟨2, [9]⟩, ⟨7, [1, 1]⟩] ++ []
      ∧ s1.pkt.magic = 7
      ∧ s1.pkt.message_len = [8, 8].length
      ∧ s1.pkt.buffer.take [8, 8].length = [8, 8]
      ∧ s1.oob = [] :=
  ⟨by decide,
   receive_board_message_by_type_scenario ⟨5, [1]⟩ ⟨7, [8, 8]⟩ ⟨7, []⟩ ⟨2, [9]⟩ ⟨7, [1, 1]⟩
     [] [] [] ⟨0, 0, [0, 0, 0, 0]⟩ 2 (by decide) (by decide) (by decide) (by decide)⟩

/-- C8: filtering.  Let the stream be `k ≥ 0` well-formed frames whose magics all
differ from `T`, then a well-formed frame `F` with magic `T`, then anything, all
frame lengths within the buffer capacity.  (A well-formed frame has a magic
other than the reserved value `0`, so `T ≠ 0` here.)  Then, given fuel for
`k + 1` iterations or more, `receive_board_message_by_type(msg, T)` returns
`F`'s length, leaves `magic = T`, `message_len` equal to `F`'s length and the
first `message_len` buffer bytes equal to `F`'s payload, and has consumed
exactly those `k + 1` frames: what follows `F` is still in the channel. -/
theorem receive_board_message_by_type_filters (T : Nat) (frames : List Frame)
    (F : Frame) (rest tx oob : List Nat) (pkt : MESSAGE_PACKET) (fuel : Nat)
    (hframes : ∀ f ∈ frames,
      f.WellFormed ∧ f.magic ≠ T ∧ f.payload.length ≤ pkt.buffer.length)
    (hF : F.WellFormed ∧ F.magic = T ∧ F.payload.length ≤ pkt.buffer.length)
    (hfuel : frames.length < fuel) :
    ∃ buffer : List Nat,
      receive_board_message_by_type fuel
          ⟨⟨wires frames ++ F.wire ++ rest, tx⟩, pkt, oob⟩ T
        = .returned (F.payload.length,
            ⟨⟨rest, tx⟩, ⟨T, F.payload.length, buffer⟩, oob⟩)
      ∧ buffer.take F.payload.length = F.payload := by
  obtain ⟨buffer, oob1, hrun, -, hfit⟩ := by_type_loop_frames T F rest tx hF.1 hF.2.1
    frames fuel pkt oob (fun f hf => ⟨(hframes f hf).1, (hframes f hf).2.1⟩) hfuel
  obtain ⟨htake, hoob⟩ := hfit (fun f hf => (hframes f hf).2.2) hF.2.2
  subst hoob
  exact ⟨buffer, by simp only [receive_board_message_by_type, hrun], htake⟩

/-- C8 at a stream of two discarded frames, a matching frame and a further
frame that stays unread. -/
theorem receive_board_message_by_type_filters_witness :
    ((∀ f ∈ [(⟨5, [1]⟩ : Frame), ⟨2, [9, 9, 9]⟩],
        f.WellFormed ∧ f.magic ≠ 7 ∧ f.payload.length ≤ [0, 0, 0, 0].length)
      ∧ (Frame.WellFormed ⟨7, [8, 8]⟩ ∧ (7 : Nat) = 7 ∧ [8, 8].length ≤ [0, 0, 0, 0].length)
      ∧ [(⟨5, [1]⟩ : Frame), ⟨2, [9, 9, 9]⟩].length < 3)
    ∧ ∃ buffer : List Nat,
      receive_board_message_by_type 3
          ⟨⟨wires [⟨5, [1]⟩, ⟨2, [9, 9, 9]⟩] ++ Frame.wire ⟨7, [8, 8]⟩ ++ [7, 1, 4], []⟩,
            ⟨0, 0, [0, 0, 0, 0]⟩, []⟩ 7
        = .returned ([8, 8].length, ⟨⟨[7, 1, 4], []⟩, ⟨7, [8, 8].length, buffer⟩, []⟩)
      ∧ buffer.take [8, 8].length = [8, 8] :=
  ⟨by decide,
   receive_board_message_by_type_filters 7 [⟨5, [1]⟩, ⟨2, [9, 9, 9]⟩] ⟨7, [8, 8]⟩
     [7, 1, 4] [] [] ⟨0, 0, [0, 0, 0, 0]⟩ 3 (by decide) (by decide) (by decide)⟩

/-- C9: return value of a send.  For every packet, `send_board_message` returns
`message_len`; after the magic and length bytes it wrote exactly that many
payload bytes; and the packet is unchanged. -/
theorem send_board_message_returns_count (s : Board MESSAGE_PACKET) :
    ∃ payload : List Nat,
      (send_board_message s).1 = s.pkt.message_len
      ∧ (send_board_message s).2.uart.tx
          = s.uart.tx ++ (s.pkt.magic :: s.pkt.message_len :: payload)
      ∧ payload.length = (send_board_message s).1
      ∧ (send_board_message s).2.pkt = s.pkt := by
  obtain ⟨payload, h1, h2⟩ := send_loop_count s.pkt.message_len 0
    (UARTCharPut (UARTCharPut s.uart s.pkt.magic) s.pkt.message_len) s.pkt.buffer s.oob
  refine ⟨payload, rfl, ?_, h2, rfl⟩
  simp only [send_board_message]
  rw [h1]
  simp [UARTCharPut]

/-- C10: nonce framing.  When the first byte of the stream is `n ≤ 255`, within
the capacity of the nonce buffer, and the stream holds at least `n + 1` bytes,
`receive_board_nonce` returns `n` having consumed exactly the first `n + 1`
bytes, with `message_len = n` and no store past the buffer; no byte is treated
as a magic, so a first byte `0` is the length `0` and one byte is consumed. -/
theorem receive_board_nonce_consumes (n : Nat) (tail tx oob : List Nat)
    (pkt : NONCE_PACKET) (hn : n ≤ 255) (hcap : n ≤ pkt.buffer.length)
    (hlen : n + 1 ≤ (n :: tail).length) :
    ∃ s1 : Board NONCE_PACKET,
      receive_board_nonce ⟨⟨n :: tail, tx⟩, pkt, oob⟩ = .returned (n, s1)
      ∧ s1.uart.rx = (n :: tail).drop (n + 1)
      ∧ s1.uart.rx.length + (n + 1) = (n :: tail).length
      ∧ s1.pkt.message_len = n
      ∧ s1.oob = oob := by
  simp only [List.length_cons] at hlen
  have hnt : n ≤ tail.length := by omega
  obtain ⟨hsplit, htake⟩ := split_at_length hnt
  have hn8 : uint8_t n = n := uint8_t_of_lt (by omega)
  have hrecv := receive_board_nonce_eq n (tail.take n) (tail.drop n) tx oob pkt
    (by rw [htake, hn8])
  rw [← hsplit, hn8,
    store_all_in_bounds _ 0 pkt.buffer oob (by rw [htake]; omega)] at hrecv
  refine ⟨_, hrecv, by simp, ?_, rfl, rfl⟩
  simp only [List.length_drop, List.length_cons]
  omega

/-- C10 at a stream whose first byte is `0`: the call returns `0` with
`message_len = 0`, and only that byte is consumed. -/
theorem receive_board_nonce_consumes_witness :
    (0 ≤ 255 ∧ 0 ≤ [1, 2].length ∧ 0 + 1 ≤ [0, 5, 6].length)
    ∧ ∃ s1 : Board NONCE_PACKET,
      receive_board_nonce ⟨⟨0 :: [5, 6], []⟩, ⟨9, [1, 2]⟩, []⟩ = .returned (0, s1)
      ∧ s1.uart.rx = (0 :: [5, 6]).drop (0 + 1)
      ∧ s1.uart.rx.length + (0 + 1) = (0 :: [5, 6]).length
      ∧ s1.pkt.message_len = 0
      ∧ s1.oob = [] :=
  ⟨by decide,
   receive_board_nonce_consumes 0 [5, 6] [] [] ⟨9, [1, 2]⟩
     (by decide) (by decide) (by decide)⟩

/-- C11: what a nonce reception stores.  For a stream of bytes `b0, b1, ...`
with `b0` within the nonce buffer capacity and at least `b0` bytes after `b0`,
`receive_board_nonce` returns `b0` with `message_len = b0` and
`buffer[i] = b(1+i)` for every `i < b0`; no store falls past the buffer. -/
theorem receive_board_nonce_fills (b0 : Nat) (tail tx oob : List Nat)
    (pkt : NONCE_PACKET) (hbytes : Bytes (b0 :: tail))
    (hcap : b0 ≤ pkt.buffer.length) (hlen : b0 ≤ tail.length) :
    ∃ s1 : Board NONCE_PACKET,
      receive_board_nonce ⟨⟨b0 :: tail, tx⟩, pkt, oob⟩ = .returned (b0, s1)
      ∧ s1.pkt.message_len = b0
      ∧ (∀ i, i < b0 → s1.pkt.buffer[i]? = tail[i]?)
      ∧ s1.oob = oob := by
  have hb0 : b0 < 256 := hbytes b0 (by simp)
  have htail : Bytes (tail.take b0) :=
    fun b hb => hbytes b (by simp [List.mem_of_mem_take hb])
  obtain ⟨hsplit, htake⟩ := split_at_length hlen
  have hrecv := receive_board_nonce_eq b0 (tail.take b0) (tail.drop b0) tx oob pkt
    (by rw [htake, uint8_t_of_lt hb0])
  rw [← hsplit, store_all_in_bounds _ 0 pkt.buffer oob (by rw [htake]; omega),
    map_uint8_t_of_bytes htail, uint8_t_of_lt hb0] at hrecv
  refine ⟨_, hrecv, rfl, ?_, rfl⟩
  intro i hi
  simp only [List.take_zero, List.nil_append]
  rw [List.getElem?_append_left (by rw [htake]; exact hi), List.getElem?_take_of_lt hi]

/-- C11 at a three-byte nonce followed by one more byte. -/
theorem receive_board_nonce_fills_witness :
    (Bytes (3 :: [0x10, 0x20, 0x30, 0x40]) ∧ 3 ≤ [1, 2, 3, 4, 5].length
      ∧ 3 ≤ [0x10, 0x20, 0x30, 0x40].length)
    ∧ ∃ s1 : Board NONCE_PACKET,
      receive_board_nonce ⟨⟨3 :: [0x10, 0x20, 0x30, 0x40], []⟩, ⟨9, [1, 2, 3, 4, 5]⟩, []⟩
        = .returned (3, s1)
      ∧ s1.pkt.message_len = 3
      ∧ (∀ i, i < 3 → s1.pkt.buffer[i]? = [0x10, 0x20, 0x30, 0x40][i]?)
      ∧ s1.oob = [] :=
  ⟨by decide,
   receive_board_nonce_fills 3 [0x10, 0x20, 0x30, 0x40] [] [] ⟨9, [1, 2, 3, 4, 5]⟩
     (by decide) (by decide) (by decide)⟩

/-! ## The filtering loop and the sentinel -/

/-- C12, as stated, fails for the target type `0`: on the stream `0, 7, 1, 9` the
call `receive_board_message_by_type(msg, 0)` returns in its first iteration, on
the sentinel, with the stale length `3`; the byte `7` that follows is not read.
So the call does not behave as a call that goes on with the next byte. -/
theorem receive_board_message_by_type_sentinel_counterexample :
    receive_board_message_by_type 1 ⟨⟨[0, 7, 1, 9], []⟩, ⟨5, 3, [1, 2, 3]⟩, []⟩ 0
        = .returned (3, ⟨⟨[7, 1, 9], []⟩, ⟨0, 3, [1, 2, 3]⟩, []⟩)
    ∧ ¬ (receive_board_message_by_type 2 ⟨⟨[0, 7, 1, 9], []⟩, ⟨5, 3, [1, 2, 3]⟩, []⟩ 0
        = receive_board_message_by_type 1 ⟨⟨[7, 1, 9], []⟩, ⟨0, 3, [1, 2, 3]⟩, []⟩ 0) := by
  decide

/-- C12, amended: for every target type other than `0`, an iteration of
`receive_board_message_by_type` that reads the sentinel byte `0` at a frame
boundary does not end the call: the call behaves as a call started on the
stream without that one byte (with one iteration spent), so exactly one byte
is consumed for the sentinel and the next byte is read as a magic. -/
theorem receive_board_message_by_type_skips_sentinel (T fuel : Nat)
    (rest tx oob : List Nat) (pkt : MESSAGE_PACKET) (hT : T ≠ 0) :
    receive_board_message_by_type (fuel + 1) ⟨⟨0 :: rest, tx⟩, pkt, oob⟩ T
      = receive_board_message_by_type fuel
          ⟨⟨rest, tx⟩, ⟨0, pkt.message_len, pkt.buffer⟩, oob⟩ T := by
  simp only [receive_board_message_by_type, by_type_loop_sentinel T fuel rest tx oob pkt hT]

/-- C12, amended, at the stream `0, 7, 1, 9` and the target type `7`: the
sentinel is skipped and the frame that follows is the match. -/
theorem receive_board_message_by_type_skips_sentinel_witness :
    (7 : Nat) ≠ 0
    ∧ receive_board_message_by_type (1 + 1) ⟨⟨0 :: [7, 1, 9], []⟩, ⟨5, 3, [1, 2, 3]⟩, []⟩ 7
      = receive_board_message_by_type 1
          ⟨⟨[7, 1, 9], []⟩, ⟨0, 3, [1, 2, 3]⟩, []⟩ 7 :=
  ⟨by decide,
   receive_board_message_by_type_skips_sentinel 7 1 [7, 1, 9] [] [] ⟨5, 3, [1, 2, 3]⟩
     (by decide)⟩

/-- C13: no bounds check.  On a stream that starts with a magic byte `m ≠ 0` and
a length byte `n` and holds the `n` payload bytes, `receive_board_message`
returns `n`, and the stores it attempted at or past the capacity `C` of the
buffer are exactly those at the indices `C, ..., n - 1`.  So every payload store
hits an index below `C` if and only if `n ≤ C`, and when `n` exceeds `C` a store
at index `C` is attempted. -/
theorem receive_board_message_unchecked_length (m n : Nat) (tail tx oob : List Nat)
    (pkt : MESSAGE_PACKET) (hm0 : m ≠ 0) (hm : m < 256) (hn : n < 256)
    (hlen : n ≤ tail.length) :
    ∃ s1 : Board MESSAGE_PACKET,
      receive_board_message ⟨⟨m :: n :: tail, tx⟩, pkt, oob⟩ = .returned (n, s1)
      ∧ s1.oob = oob ++ List.range' pkt.buffer.length (n - pkt.buffer.length)
      ∧ (s1.oob = oob ↔ n ≤ pkt.buffer.length)
      ∧ (pkt.buffer.length < n → pkt.buffer.length ∈ s1.oob) := by
  obtain ⟨hsplit, htake⟩ := split_at_length hlen
  have hn8 : uint8_t n = n := uint8_t_of_lt hn
  have hrecv := receive_board_message_eq m n (tail.take n) (tail.drop n) tx oob pkt
    (by rw [uint8_t_of_lt hm]; exact hm0) (by rw [htake, hn8])
  rw [← hsplit, hn8] at hrecv
  have hlog : (store_all (tail.take n) 0 pkt.buffer oob).2
      = oob ++ List.range' pkt.buffer.length (n - pkt.buffer.length) := by
    rw [store_all_oob, htake]
    simp
  refine ⟨_, hrecv, hlog, ?_, ?_⟩
  · show (store_all (tail.take n) 0 pkt.buffer oob).2 = oob ↔ n ≤ pkt.buffer.length
    rw [hlog]
    constructor
    · intro h
      have h1 := congrArg List.length h
      simp only [List.length_append, List.length_range'] at h1
      omega
    · intro h
      have h0 : n - pkt.buffer.length = 0 := by omega
      simp [h0]
  · intro h
    show pkt.buffer.length ∈ (store_all (tail.take n) 0 pkt.buffer oob).2
    rw [hlog]
    apply List.mem_append_right
    rw [List.mem_range'_1]
    omega

/-- C13 at a buffer of capacity `2` and a frame of length `3`: the third payload
byte is stored at index `2`, past the buffer. -/
theorem receive_board_message_unchecked_length_witness :
    ((5 : Nat) ≠ 0 ∧ 5 < 256 ∧ 3 < 256 ∧ 3 ≤ [7, 8, 9].length)
    ∧ ∃ s1 : Board MESSAGE_PACKET,
      receive_board_message ⟨⟨5 :: 3 :: [7, 8, 9], []⟩, ⟨0, 0, [1, 2]⟩, []⟩
        = .returned (3, s1)
      ∧ s1.oob = [] ++ List.range' [1, 2].length (3 - [1, 2].length)
      ∧ (s1.oob = [] ↔ 3 ≤ [1, 2].length)
      ∧ ([1, 2].length < 3 → [1, 2].length ∈ s1.oob) :=
  ⟨by decide,
   receive_board_message_unchecked_length 5 3 [7, 8, 9] [] [] ⟨0, 0, [1, 2]⟩
     (by decide) (by decide) (by decide) (by decide)⟩

/-- C14: number of iterations.  On a stream of `k ≥ 0` well-formed frames whose
magics differ from `T` followed by a well-formed frame `F` with magic `T`, all
of them no longer than the buffer capacity, the call of
`receive_board_message_by_type(msg, T)` returns at `F` as soon as it is given
fuel for `k + 1` calls of `receive_board_message`, with no store past the
buffer, and with fuel for `k` calls or fewer it is still looping: it makes
exactly `k + 1` calls, `k` that discard a frame and one that matches. -/
theorem receive_board_message_by_type_calls (T : Nat) (frames : List Frame)
    (F : Frame) (rest tx oob : List Nat) (pkt : MESSAGE_PACKET)
    (hframes : ∀ f ∈ frames,
      f.WellFormed ∧ f.magic ≠ T ∧ f.payload.length ≤ pkt.buffer.length)
    (hF : F.WellFormed ∧ F.magic = T ∧ F.payload.length ≤ pkt.buffer.length) :
    (∀ fuel, frames.length + 1 ≤ fuel →
      ∃ s1 : Board MESSAGE_PACKET,
        receive_board_message_by_type fuel
            ⟨⟨wires frames ++ F.wire ++ rest, tx⟩, pkt, oob⟩ T
          = .returned (F.payload.length, s1)
        ∧ s1.pkt.magic = T ∧ s1.uart.rx = rest ∧ s1.oob = oob)
    ∧ (∀ fuel, fuel ≤ frames.length →
        receive_board_message_by_type fuel
            ⟨⟨wires frames ++ F.wire ++ rest, tx⟩, pkt, oob⟩ T
          = .timeout) := by
  have hframes1 : ∀ f ∈ frames, f.WellFormed ∧ f.magic ≠ T :=
    fun f hf => ⟨(hframes f hf).1, (hframes f hf).2.1⟩
  constructor
  · intro fuel hfuel
    obtain ⟨buffer, oob1, hrun, -, hfit⟩ := by_type_loop_frames T F rest tx hF.1 hF.2.1
      frames fuel pkt oob hframes1 (by omega)
    obtain ⟨-, hoob⟩ := hfit (fun f hf => (hframes f hf).2.2) hF.2.2
    exact ⟨⟨⟨rest, tx⟩, ⟨T, F.payload.length, buffer⟩, oob1⟩,
      by simp only [receive_board_message_by_type, hrun], rfl, rfl, hoob⟩
  · intro fuel hfuel
    have hrun := by_type_loop_short T (F.wire ++ rest) tx frames fuel pkt oob hframes1 hfuel
    rw [← List.append_assoc] at hrun
    simp only [receive_board_message_by_type, hrun]

/-- C14 at two discarded frames and a match: three calls are needed and
suffice. -/
theorem receive_board_message_by_type_calls_witness :
    ((∀ f ∈ [(⟨5, [1]⟩ : Frame), ⟨2, [9, 9, 9]⟩],
        f.WellFormed ∧ f.magic ≠ 7 ∧ f.payload.length ≤ [0, 0, 0, 0].length)
      ∧ (Frame.WellFormed ⟨7, [8, 8]⟩ ∧ (7 : Nat) = 7
        ∧ [8, 8].length ≤ [0, 0, 0, 0].length))
    ∧ (∀ fuel, [(⟨5, [1]⟩ : Frame), ⟨2, [9, 9, 9]⟩].length + 1 ≤ fuel →
      ∃ s1 : Board MESSAGE_PACKET,
        receive_board_message_by_type fuel
            ⟨⟨wires [⟨5, [1]⟩, ⟨2, [9, 9, 9]⟩] ++ Frame.wire ⟨7, [8, 8]⟩ ++ [4], []⟩,
              ⟨0, 0, [0, 0, 0, 0]⟩, []⟩ 7
          = .returned ([8, 8].length, s1)
        ∧ s1.pkt.magic = 7 ∧ s1.uart.rx = [4] ∧ s1.oob = [])
    ∧ (∀ fuel, fuel ≤ [(⟨5, [1]⟩ : Frame), ⟨2, [9, 9, 9]⟩].length →
        receive_board_message_by_type fuel
            ⟨⟨wires [⟨5, [1]⟩, ⟨2, [9, 9, 9]⟩] ++ Frame.wire ⟨7, [8, 8]⟩ ++ [4], []⟩,
              ⟨0, 0, [0, 0, 0, 0]⟩, []⟩ 7
          = .timeout) :=
  ⟨by decide,
   receive_board_message_by_type_calls 7 [⟨5, [1]⟩, ⟨2, [9, 9, 9]⟩] ⟨7, [8, 8]⟩
     [4] [] [] ⟨0, 0, [0, 0, 0, 0]⟩ (by decide) (by decide)⟩

/-- C15: target type `0`.  On a stream of well-formed frames (all discarded,
their magics being nonzero), none longer than the buffer capacity, followed by
a sentinel byte `0`, the call `receive_board_message_by_type(msg, 0)` returns on
the sentinel, reading nothing after it, and its result is the stale
`message_len` of the packet: the length of the last discarded frame, or the
caller's initial `message_len` when no frame came first.  The buffer is what
the discarded frames left in it: it starts with the payload of the last
discarded frame, and it is the caller's buffer when there was none. -/
theorem receive_board_message_by_type_zero_stale (frames : List Frame)
    (rest tx oob : List Nat) (pkt : MESSAGE_PACKET) (fuel : Nat)
    (hframes : ∀ f ∈ frames, f.WellFormed ∧ f.payload.length ≤ pkt.buffer.length)
    (hfuel : frames.length < fuel) :
    ∃ s1 : Board MESSAGE_PACKET,
      receive_board_message_by_type fuel
          ⟨⟨wires frames ++ 0 :: rest, tx⟩, pkt, oob⟩ 0
        = .returned (stale_len frames pkt, s1)
      ∧ s1.uart.rx = rest
      ∧ s1.pkt.magic = 0
      ∧ s1.pkt.message_len = stale_len frames pkt
      ∧ s1.pkt.buffer = (after_frames frames pkt oob).1.buffer
      ∧ (∀ g, frames.getLast? = some g →
          s1.pkt.buffer.take g.payload.length = g.payload)
      ∧ (frames = [] → s1.pkt.buffer = pkt.buffer)
      ∧ s1.oob = oob := by
  obtain ⟨j, rfl⟩ : ∃ j, fuel = frames.length + (j + 1) :=
    ⟨fuel - frames.length - 1, by omega⟩
  have hskip := by_type_loop_skip 0 (0 :: rest) tx frames (j + 1) pkt oob
    (fun f hf => ⟨(hframes f hf).1, (hframes f hf).1.1⟩)
  rw [by_type_loop_sentinel_zero] at hskip
  obtain ⟨hoob, -, hlast⟩ := after_frames_in_bounds frames pkt oob hframes
  refine ⟨⟨⟨rest, tx⟩, ⟨0, (after_frames frames pkt oob).1.message_len,
    (after_frames frames pkt oob).1.buffer⟩, (after_frames frames pkt oob).2⟩,
    ?_, rfl, rfl, after_frames_message_len frames pkt oob, rfl, hlast, ?_, hoob⟩
  · simp only [receive_board_message_by_type, hskip, after_frames_message_len]
  · intro hnil
    subst hnil
    rfl

/-- C15 at one discarded frame of length `3` followed by the sentinel: the
result is `3`, not `0`, and the buffer holds the discarded payload. -/
theorem receive_board_message_by_type_zero_stale_witness :
    ((∀ f ∈ [(⟨5, [1, 2, 3]⟩ : Frame)],
        f.WellFormed ∧ f.payload.length ≤ [0, 0, 0, 0].length)
      ∧ [(⟨5, [1, 2, 3]⟩ : Frame)].length < 2)
    ∧ ∃ s1 : Board MESSAGE_PACKET,
      receive_board_message_by_type 2
          ⟨⟨wires [⟨5, [1, 2, 3]⟩] ++ 0 :: [8, 8], []⟩, ⟨9, 9, [0, 0, 0, 0]⟩, []⟩ 0
        = .returned (3, s1)
      ∧ s1.uart.rx = [8, 8]
      ∧ s1.pkt.magic = 0
      ∧ s1.pkt.message_len = 3
      ∧ s1.pkt.buffer = [1, 2, 3, 0]
      ∧ (∀ g, [(⟨5, [1, 2, 3]⟩ : Frame)].getLast? = some g →
          s1.pkt.buffer.take g.payload.length = g.payload)
      ∧ ([(⟨5, [1, 2, 3]⟩ : Frame)] = [] → s1.pkt.buffer = [0, 0, 0, 0])
      ∧ s1.oob = [] :=
  ⟨by decide,
   receive_board_message_by_type_zero_stale [⟨5, [1, 2, 3]⟩] [8, 8] [] []
     ⟨9, 9, [0, 0, 0, 0]⟩ 2 (by decide) (by decide)⟩

/-- C17: the reserved magic.  Let `P` be a packet with `magic = 0` and a
one-byte `message_len = n` within its buffer capacity.  `send_board_message`
still writes all `n + 2` bytes: `0`, `n` and the `n` payload bytes.
`receive_board_message` on a stream that starts with those bytes returns `0`
having consumed the first byte only: the `n + 1` length and payload bytes stay
in the channel and the packet keeps its own length and buffer, so `P` is not
rebuilt.  The next `receive_board_message` call takes `n` as its magic: when
`n = 0` it returns `0` on it as on a sentinel, and when `n ≠ 0` and the stream
holds the bytes this second frame announces (first payload byte `L` as the
length, then `L` bytes, `L` within the capacity), it returns `L` with
`magic = n`. -/
theorem send_receive_reserved_magic (P D : MESSAGE_PACKET)
    (rx0 more tx1 oob : List Nat) (L : Nat) (body rest1 : List Nat)
    (hmagic : P.magic = 0) (hlen : P.message_len < 256)
    (hcapP : P.message_len ≤ P.buffer.length)
    (hnext : P.message_len ≠ 0 →
      P.buffer.take P.message_len ++ more = L :: (body ++ rest1)
      ∧ body.length = uint8_t L ∧ uint8_t L ≤ D.buffer.length) :
    (send_board_message ⟨⟨rx0, []⟩, P, []⟩).2.uart.tx
        = 0 :: P.message_len :: P.buffer.take P.message_len
    ∧ (send_board_message ⟨⟨rx0, []⟩, P, []⟩).2.uart.tx.length = P.message_len + 2
    ∧ ∃ s1 : Board MESSAGE_PACKET,
        receive_board_message
            ⟨⟨(send_board_message ⟨⟨rx0, []⟩, P, []⟩).2.uart.tx ++ more, tx1⟩, D, oob⟩
          = .returned (0, s1)
        ∧ s1.uart.rx = P.message_len :: (P.buffer.take P.message_len ++ more)
        ∧ s1.pkt = ⟨0, D.message_len, D.buffer⟩
        ∧ ∃ (r2 : Nat) (s2 : Board MESSAGE_PACKET),
            receive_board_message s1 = .returned (r2, s2)
            ∧ s2.pkt.magic = P.message_len
            ∧ s2.oob = oob
            ∧ (P.message_len = 0 → r2 = 0
                ∧ s2.uart.rx = P.buffer.take P.message_len ++ more)
            ∧ (P.message_len ≠ 0 →
                r2 = uint8_t L ∧ s2.pkt.message_len = uint8_t L
                ∧ s2.uart.rx = rest1) := by
  have hsend := send_board_message_eq ⟨⟨rx0, []⟩, P, []⟩ hcapP
  simp only [List.nil_append] at hsend
  rw [hsend, hmagic]
  refine ⟨rfl, by simp; omega, ?_⟩
  refine ⟨⟨⟨P.message_len :: (P.buffer.take P.message_len ++ more), tx1⟩,
    ⟨0, D.message_len, D.buffer⟩, oob⟩,
    receive_board_message_sentinel _ tx1 oob D, rfl, rfl, ?_⟩
  by_cases h0 : P.message_len = 0
  · refine ⟨0, ⟨⟨P.buffer.take P.message_len ++ more, tx1⟩,
      ⟨0, D.message_len, D.buffer⟩, oob⟩, ?_, h0.symm, rfl, fun _ => ⟨rfl, rfl⟩,
      fun h => absurd h0 h⟩
    rw [h0]
    exact receive_board_message_sentinel _ tx1 oob _
  · obtain ⟨hshape, hbody, hcapD⟩ := hnext h0
    have hn8 : uint8_t P.message_len = P.message_len := uint8_t_of_lt hlen
    have hrecv := receive_board_message_eq P.message_len L body rest1 tx1 oob
      ⟨0, D.message_len, D.buffer⟩ (by rw [hn8]; exact h0) hbody
    rw [hn8, store_all_in_bounds _ 0 D.buffer oob (by rw [hbody]; omega)] at hrecv
    rw [hshape]
    exact ⟨_, _, hrecv, rfl, rfl, fun h => absurd h h0, fun _ => ⟨rfl, rfl, rfl⟩⟩

/-- C17 at the packet `{magic: 0, message_len: 2, buffer: [1, 9]}`: the wire
bytes are `0, 2, 1, 9`; the first call returns `0` and leaves `2, 1, 9`; the
second call returns `1` with `magic = 2`. -/
theorem send_receive_reserved_magic_witness :
    ((0 : Nat) = 0 ∧ 2 < 256 ∧ 2 ≤ [1, 9].length
      ∧ ((2 : Nat) ≠ 0 →
          [1, 9].take 2 ++ [] = 1 :: ([9] ++ [])
          ∧ [9].length = uint8_t 1 ∧ uint8_t 1 ≤ [0, 0, 0].length))
    ∧ (send_board_message ⟨⟨[], []⟩, ⟨0, 2, [1, 9]⟩, []⟩).2.uart.tx
        = 0 :: 2 :: [1, 9].take 2
    ∧ (send_board_message ⟨⟨[], []⟩, ⟨0, 2, [1, 9]⟩, []⟩).2.uart.tx.length = 2 + 2
    ∧ ∃ s1 : Board MESSAGE_PACKET,
        receive_board_message
            ⟨⟨(send_board_message ⟨⟨[], []⟩, ⟨0, 2, [1, 9]⟩, []⟩).2.uart.tx ++ [], []⟩,
              ⟨5, 3, [0, 0, 0]⟩, []⟩
          = .returned (0, s1)
        ∧ s1.uart.rx = 2 :: ([1, 9].take 2 ++ [])
        ∧ s1.pkt = ⟨0, 3, [0, 0, 0]⟩
        ∧ ∃ (r2 : Nat) (s2 : Board MESSAGE_PACKET),
            receive_board_message s1 = .returned (r2, s2)
            ∧ s2.pkt.magic = 2
            ∧ s2.oob = []
            ∧ ((2 : Nat) = 0 → r2 = 0 ∧ s2.uart.rx = [1, 9].take 2 ++ [])
            ∧ ((2 : Nat) ≠ 0 →
                r2 = uint8_t 1 ∧ s2.pkt.message_len = uint8_t 1
                ∧ s2.uart.rx = []) :=
  ⟨by decide,
   send_receive_reserved_magic ⟨0, 2, [1, 9]⟩ ⟨5, 3, [0, 0, 0]⟩ [] [] [] [] 1 [9] []
     (by decide) (by decide) (by decide) (by decide)⟩

/-- C18: the result `0`.  On a stream of bytes `b0, b1, ...` (when `b0 ≠ 0`,
with `b1` within the buffer capacity and the `b1` payload bytes present),
`receive_board_message` returns `0` if and only if `b0 = 0` or `b1 = 0`;
otherwise it returns `b1`, a value from `1` to `255`. -/
theorem receive_board_message_zero_result (b0 b1 : Nat) (tail tx oob : List Nat)
    (pkt : MESSAGE_PACKET) (hb0 : b0 < 256) (hb1 : b1 < 256)
    (hlen : b0 ≠ 0 → b1 ≤ tail.length ∧ b1 ≤ pkt.buffer.length) :
    ∃ (r : Nat) (s1 : Board MESSAGE_PACKET),
      receive_board_message ⟨⟨b0 :: b1 :: tail, tx⟩, pkt, oob⟩ = .returned (r, s1)
      ∧ (r = 0 ↔ (b0 = 0 ∨ b1 = 0))
      ∧ (¬ (b0 = 0 ∨ b1 = 0) → r = b1 ∧ 1 ≤ r ∧ r ≤ 255)
      ∧ s1.oob = oob := by
  by_cases h0 : b0 = 0
  · subst h0
    exact ⟨0, _, receive_board_message_sentinel _ tx oob pkt, by simp, by simp, rfl⟩
  · obtain ⟨hsplit, htake⟩ := split_at_length (hlen h0).1
    have hn8 : uint8_t b1 = b1 := uint8_t_of_lt hb1
    have hrecv := receive_board_message_eq b0 b1 (tail.take b1) (tail.drop b1) tx oob pkt
      (by rw [uint8_t_of_lt hb0]; exact h0) (by rw [htake, hn8])
    rw [← hsplit, hn8,
      store_all_in_bounds _ 0 pkt.buffer oob (by rw [htake]; have := (hlen h0).2; omega)]
      at hrecv
    refine ⟨b1, _, hrecv, by simp [h0], ?_, rfl⟩
    intro h
    have h1 : b1 ≠ 0 := fun e => h (Or.inr e)
    omega

/-- C18 at an empty frame: the result is `0` although the first byte is not the
sentinel. -/
theorem receive_board_message_zero_result_witness :
    ((7 : Nat) < 256 ∧ (0 : Nat) < 256
      ∧ ((7 : Nat) ≠ 0 → 0 ≤ [5, 6].length ∧ 0 ≤ [1, 2].length))
    ∧ ∃ (r : Nat) (s1 : Board MESSAGE_PACKET),
      receive_board_message ⟨⟨7 :: 0 :: [5, 6], []⟩, ⟨9, 9, [1, 2]⟩, []⟩ = .returned (r, s1)
      ∧ (r = 0 ↔ ((7 : Nat) = 0 ∨ (0 : Nat) = 0))
      ∧ (¬ ((7 : Nat) = 0 ∨ (0 : Nat) = 0) → r = 0 ∧ 1 ≤ r ∧ r ≤ 255)
      ∧ s1.oob = [] :=
  ⟨by decide,
   receive_board_message_zero_result 7 0 [5, 6] [] [] ⟨9, 9, [1, 2]⟩
     (by decide) (by decide) (by decide)⟩

end BoardLink
